import Mathlib

/-!
Shallow embedding of the circuit-simulation core of the `animi` repository
(`Component.ts`, the concrete component classes, `Wire.ts`,
`PhysicsEngine.ts`, `CircuitSimulator.ts`), together with theorems checking
the natural-language specification against it.

Conventions of the embedding:
* JS numbers are rationals (`ℚ`); the only irrational ingredient,
  `Math.exp`, is threaded through as an abstract parameter `expQ : ℚ → ℚ`,
  since no property proved here depends on its values.
* A JS number that can be `Infinity` (component resistances of burned-out
  parts) is a `Qinf`.
* Mutable objects are passed and returned explicitly; the component heap of
  an engine state models JS object identity (wires keep referencing a
  component object even after it leaves the engine's component list).
-/

/-- JS `Math.abs` on rationals. -/
def absQ (x : ℚ) : ℚ := if x < 0 then -x else x

/-- JS `Math.min` on rationals. -/
def minQ (x y : ℚ) : ℚ := if x ≤ y then x else y

/-- A JS number that is either a finite rational or `Infinity` (burned-out
components report `Infinity` as their resistance). -/
inductive Qinf where
  | fin (q : ℚ)
  | inf
deriving DecidableEq

/-- JS comparison `resistance > 0` (true for `Infinity`). -/
def Qinf.isPos : Qinf → Bool
  | .fin q => decide (0 < q)
  | .inf => true

/-- JS `1 / resistance` as used for the conductance (`1 / Infinity = 0`). -/
def Qinf.recip : Qinf → ℚ
  | .fin q => 1 / q
  | .inf => 0

/-- JS `voltage / (resistance || 1)` of the Norton source injection in
`buildConductanceMatrix`: a resistance of exactly `0` is replaced by `1`,
and division by `Infinity` gives `0`. -/
def srcInject (voltage : ℚ) : Qinf → ℚ
  | .fin q => voltage / (if q = 0 then 1 else q)
  | .inf => 0

/-- A component terminal (`Terminal` in `Component.ts`): node id, solved
voltage and solved current. The `position` field is presentation-only and
is omitted. -/
structure Term where
  node : ℕ
  voltage : ℚ
  current : ℚ
deriving DecidableEq

/-- Variant-specific state of the six device kinds. Constructor-fixed
constants (rated power `0.25`, ESR `0.1`, forward resistance `10`,
max current `0.03`, switch resistances, coil resistance `5`, back-EMF
constant `0.01`, voltage rating `25`, internal resistance `0.1`) are
inlined as literals exactly where the source hard-codes them. -/
inductive CompData where
  | battery (voltage : ℚ)
  | resistor (resistance : ℚ)
  | led (forwardVoltage : ℚ) (brightness : ℚ)
  | capacitor (capacitance : ℚ) (charge : ℚ)
  | switch (isOpen : Bool)
  | motor (rpm : ℚ) (rotorAngle : ℚ)
deriving DecidableEq

/-- A component object: the shared base-class fields of `Component.ts`
plus the variant payload. -/
structure Comp where
  data : CompData
  temperature : ℚ
  powerDissipation : ℚ
  isBurned : Bool
  t0 : Term
  t1 : Term
deriving DecidableEq

/-- `maxTemperature` as set by each constructor (`150` base-class default;
resistor `200`, LED `125`, motor `180`). -/
def CompData.maxTemperature : CompData → ℚ
  | .resistor _ => 200
  | .led _ _ => 125
  | .motor _ _ => 180
  | _ => 150

/-- `getVoltage()` of each device kind: the battery reports its source
voltage (`0` once burned), the capacitor reports `charge / capacitance`,
every other kind reports the terminal-voltage difference. -/
def Comp.getVoltage (c : Comp) : ℚ :=
  match c.data with
  | .battery v => if c.isBurned then 0 else v
  | .capacitor cap q => q / cap
  | _ => c.t0.voltage - c.t1.voltage

/-- `getResistance()` of each device kind; `expQ` models JS `Math.exp`. -/
def Comp.getResistance (expQ : ℚ → ℚ) (c : Comp) : Qinf :=
  match c.data with
  | .battery _ => .fin (1/10)
  | .resistor r => if c.isBurned then .inf else .fin r
  | .led vf _ =>
      if c.isBurned then .inf
      else
        if vf ≤ c.t0.voltage - c.t1.voltage then .fin 10
        else if 0 < c.t0.voltage - c.t1.voltage then
          .fin (10 * expQ ((vf - (c.t0.voltage - c.t1.voltage)) * 5))
        else .fin 1000000
  | .capacitor _ _ => .fin (1/10)
  | .switch o => if o then .fin 1000000000 else .fin (1/100)
  | .motor _ _ => if c.isBurned then .inf else .fin 5

/-- `getCurrent()` of each device kind. -/
def Comp.getCurrent (c : Comp) : ℚ :=
  match c.data with
  | .battery _ => c.t0.current
  | .resistor r => if c.isBurned then 0 else (c.t0.voltage - c.t1.voltage) / r
  | .led vf _ =>
      if c.isBurned then 0
      else
        if vf ≤ c.t0.voltage - c.t1.voltage then
          minQ ((c.t0.voltage - c.t1.voltage - vf) / 10) (3/100 * (3/2))
        else 0
  | .capacitor _ _ => c.t0.current
  | .switch o => if o then 0 else (c.t0.voltage - c.t1.voltage) / (1/100)
  | .motor rpm _ =>
      if c.isBurned then 0
      else (c.t0.voltage - c.t1.voltage - 1/100 * rpm) / 5

/-- `updateTemperature(deltaTime)` of the base class: first-order approach
of the temperature to `ambient + powerDissipation * thermalResistance`
with `tau = thermalCapacity * thermalResistance = 50 * 10 = 500`, followed
by the over-temperature burnout check. -/
def Comp.updateTemperature (expQ : ℚ → ℚ) (dt : ℚ) (c : Comp) : Comp :=
  { c with
    temperature := c.temperature + (25 + c.powerDissipation * 10 - c.temperature) * (1 - expQ (-dt / 500)),
    isBurned := c.isBurned ||
      decide (c.data.maxTemperature <
        c.temperature + (25 + c.powerDissipation * 10 - c.temperature) * (1 - expQ (-dt / 500))) }

/-- `LED.update(deltaTime)`: brightness from the current, power dissipation,
the overcurrent burnout check (`current > maxCurrent * 2`), the shared
thermal update, and the terminal-current write-back. On a non-LED component
this acts as the identity. -/
def LED.update (expQ : ℚ → ℚ) (dt : ℚ) (c : Comp) : Comp :=
  match c.data with
  | .led vf _ =>
      let current := c.getCurrent
      let voltage := c.getVoltage
      let brightness1 := if 0 < current ∧ c.isBurned = false then minQ (current / (3/100)) 1 else 0
      let burned1 := c.isBurned || decide (3/100 * 2 < current)
      let brightness2 := if 3/100 * 2 < current then 0 else brightness1
      let c1 := { c with
        data := CompData.led vf brightness2,
        powerDissipation := voltage * current,
        isBurned := burned1 }
      let c2 := Comp.updateTemperature expQ dt c1
      { c2 with
        t0 := { c2.t0 with current := current },
        t1 := { c2.t1 with current := -current } }
  | _ => c

/-- `Capacitor.update(deltaTime)`: integrate `I = (V_a - V_b) / esr` into
the stored charge, burn out (resetting the charge to `0`) once
`|charge| > maxVoltage * capacitance`, write back terminal currents, then
power dissipation and the shared thermal update. On a non-capacitor
component this acts as the identity. -/
def Capacitor.update (expQ : ℚ → ℚ) (dt : ℚ) (c : Comp) : Comp :=
  match c.data with
  | .capacitor cap q =>
      let c1 :=
        if c.isBurned = false then
          let current := (c.t0.voltage - c.t1.voltage) / (1/10)
          let q1 := q + current * dt
          let burnt := 25 * cap < absQ q1
          { c with
            data := CompData.capacitor cap (if burnt then 0 else q1),
            isBurned := if burnt then true else c.isBurned,
            t0 := { c.t0 with current := current },
            t1 := { c.t1 with current := -current } }
        else c
      Comp.updateTemperature expQ dt
        { c1 with powerDissipation := c1.getCurrent * c1.getCurrent * (1/10) }
  | _ => c

/-- `Component.generateNodeId()` of the base class: return the static
counter value and the incremented counter. -/
def Component.generateNodeId (nextNodeId : ℕ) : ℕ × ℕ := (nextNodeId, nextNodeId + 1)

/-- `Resistor.generateNodeId()` — the private override that every concrete
component class (`Resistor`, `Battery`, `LED`, `Switch`, `Capacitor`,
`Motor`) defines identically: `Math.floor(Math.random() * 1000000)` for a
random draw `r ∈ [0, 1)`. -/
def Resistor.generateNodeId (r : ℚ) : ℤ := ⌊r * 1000000⌋

/-- The label-rewrite of one wire merge: every terminal carrying the larger
of the two endpoint node ids is rewritten to the smaller one. -/
def collapse (u v x : ℕ) : ℕ := if x = max u v then min u v else x

/-- A wire endpoint as seen by the wire loop of
`PhysicsEngine.rebuildCircuit`: either the `slot`-th terminal slot of the
engine's component list (two slots per listed component, in list order), or
— when the wire references a component object that is not in the engine's
list — that external terminal's node id, which the loop reads but never
rewrites. -/
inductive WireEnd where
  | listed (slot : ℕ)
  | unlisted (node : ℕ)
deriving DecidableEq

/-- The node id a wire endpoint currently carries (`none` models the
`getTerminal` null check skipping the wire). -/
def WireEnd.label (ts : List ℕ) : WireEnd → Option ℕ
  | .listed i => ts[i]?
  | .unlisted v => some v

/-- One iteration of the wire loop of `PhysicsEngine.rebuildCircuit`: read
the two endpoint node ids and rewrite every listed terminal carrying the
larger id to the smaller id. -/
def mergeStep (ts : List ℕ) (w : WireEnd × WireEnd) : List ℕ :=
  match w.1.label ts, w.2.label ts with
  | some a, some b => ts.map (collapse a b)
  | _, _ => ts

/-- The whole wire loop of `rebuildCircuit`: fold `mergeStep` over the wire
list in order. -/
def rebuildMerge (ts : List ℕ) (ws : List (WireEnd × WireEnd)) : List ℕ :=
  ws.foldl mergeStep ts

/-- A wire whose two endpoints both are terminals of listed components. -/
def InternalWire (n : ℕ) (w : WireEnd × WireEnd) : Prop :=
  ∃ i j, w = (WireEnd.listed i, WireEnd.listed j) ∧ i < n ∧ j < n

/-- A wire record (`Wire.ts`): heap indices of the two referenced component
objects, the two terminal indices, and the solved current. The fixed
`0.01 Ω` wire resistance is inlined as a literal. -/
structure Wire where
  startComponent : ℕ
  startTerminal : ℕ
  endComponent : ℕ
  endTerminal : ℕ
  current : ℚ
deriving DecidableEq

/-- `PhysicsEngine` state. `heap` holds every live component object, indexed
by object identity — a wire may reference an object that is no longer in
`components`. `components` holds the heap indices of the engine's component
list, `wires` its wire list, and `nodes` the node map as an
insertion-ordered association list of node id and cached voltage. -/
structure EngineState where
  heap : List Comp
  components : List ℕ
  wires : List Wire
  nodes : List (ℕ × ℚ)

/-- Placeholder object for out-of-range heap reads (unreachable in states
built by the engine's own operations). -/
def defaultComp : Comp :=
  { data := .battery 0, temperature := 25, powerDissipation := 0,
    isBurned := false, t0 := ⟨0, 0, 0⟩, t1 := ⟨0, 0, 0⟩ }

/-- The component object a heap index refers to. -/
def EngineState.compAt (s : EngineState) (i : ℕ) : Comp := s.heap.getD i defaultComp

/-- `Component.getTerminal(index)` (`null` for an out-of-range index). -/
def Comp.getTerminal (c : Comp) (i : ℕ) : Option Term :=
  if i = 0 then some c.t0 else if i = 1 then some c.t1 else none

/-- First phase of `rebuildCircuit`: rebuild the node map by walking every
listed component's terminals in order and inserting an entry with cached
voltage `0` for each node id not yet present. -/
def collectNodes (cs : List Comp) : List (ℕ × ℚ) :=
  cs.foldl
    (fun acc c =>
      let acc1 := if (acc.lookup c.t0.node).isSome then acc else acc ++ [(c.t0.node, 0)]
      if (acc1.lookup c.t1.node).isSome then acc1 else acc1 ++ [(c.t1.node, 0)])
    []

/-- Translate one endpoint of a wire record for the merge loop: a terminal
of a listed component becomes its terminal slot, a terminal of an unlisted
component becomes its fixed node id, and a missing terminal (out-of-range
terminal index) becomes `none`, making the loop skip the wire. -/
def EngineState.wireEnd (s : EngineState) (cid tIdx : ℕ) : Option WireEnd :=
  match s.components.findIdx? (fun c => c = cid) with
  | some p => if tIdx < 2 then some (.listed (2 * p + tIdx)) else none
  | none =>
      match (s.compAt cid).getTerminal tIdx with
      | some t => some (.unlisted t.node)
      | none => none

/-- Both endpoints of a wire record, or `none` when either terminal lookup
fails (the `if (startTerminal && endTerminal)` guard). -/
def EngineState.wireEnds (s : EngineState) (w : Wire) : Option (WireEnd × WireEnd) :=
  match s.wireEnd w.startComponent w.startTerminal, s.wireEnd w.endComponent w.endTerminal with
  | some e1, some e2 => some (e1, e2)
  | _, _ => none

/-- The terminal slots of the listed components: two node ids per listed
component, in list order. -/
def EngineState.slotNodes (s : EngineState) : List ℕ :=
  s.components.flatMap (fun i => [(s.compAt i).t0.node, (s.compAt i).t1.node])

/-- Write the merged slot node ids back into the heap objects of the listed
components (the in-place `terminal.node = minNode` writes of the source). -/
def EngineState.writeBackNodes (s : EngineState) (ts : List ℕ) : List Comp :=
  (List.range s.components.length).foldl
    (fun h p =>
      match s.components[p]? with
      | some cid =>
          let c := h.getD cid defaultComp
          h.set cid
            { c with
              t0 := { c.t0 with node := ts.getD (2 * p) c.t0.node },
              t1 := { c.t1 with node := ts.getD (2 * p + 1) c.t1.node } }
      | none => h)
    s.heap

/-- `PhysicsEngine.rebuildCircuit()`: clear and rebuild the node map from
the listed components' current terminal node ids, then run the wire merge
loop and write the merged ids back into the listed components' terminals.
The node map is not updated by the merge loop, so ids merged away remain
as entries. -/
def EngineState.rebuildCircuit (s : EngineState) : EngineState :=
  let cs := s.components.map s.compAt
  let ws := s.wires.filterMap s.wireEnds
  { s with
    nodes := collectNodes cs,
    heap := s.writeBackNodes (rebuildMerge s.slotNodes ws) }

/-- Matrix entry read `M[i][j]` (JS out-of-range reads are unreachable in
the solver's in-range accesses; `0` resp. `[]` stand in as defaults). -/
def mGetD (M : List (List ℚ)) (i j : ℕ) : ℚ := (M.getD i []).getD j 0

/-- In-place update `M[i][j] += v`. -/
def mAdd (M : List (List ℚ)) (i j : ℕ) (v : ℚ) : List (List ℚ) :=
  M.set i ((M.getD i []).set j (mGetD M i j + v))

/-- In-place update `b[i] += v`. -/
def vAdd (b : List ℚ) (i : ℕ) (v : ℚ) : List ℚ := b.set i (b.getD i 0 + v)

/-- `PhysicsEngine.countVoltageSources()`: the number of listed components
whose `getVoltage()` is non-zero. -/
def EngineState.countVoltageSources (s : EngineState) : ℕ :=
  ((s.components.map s.compAt).filter (fun c => decide (c.getVoltage ≠ 0))).length

/-- The matrix size chosen by `solveCircuit`: node-map entry count plus
voltage-source count. -/
def EngineState.matrixSize (s : EngineState) : ℕ :=
  s.nodes.length + s.countVoltageSources

/-- The `nodeMap` of `buildConductanceMatrix`: the node-map ids other than
ground (`0`), each paired with its consecutive matrix index in node-map
order. -/
def EngineState.nodeIndexMap (s : EngineState) : List (ℕ × ℕ) :=
  (((s.nodes.map Prod.fst).filter (fun id => decide (id ≠ 0))).enum).map (fun p => (p.2, p.1))

/-- The per-component body of the assembly loop of
`buildConductanceMatrix`: the resistive four-entry stamp (only when
`resistance > 0` and both endpoint nodes are unknowns) and the Norton
source injection into `b` (only when `getVoltage()` is non-zero, each
endpoint row independently). -/
def stampComponent (expQ : ℚ → ℚ) (nm : List (ℕ × ℕ)) (Gb : List (List ℚ) × List ℚ)
    (c : Comp) : List (List ℚ) × List ℚ :=
  let resistance := c.getResistance expQ
  let voltage := c.getVoltage
  let G1 :=
    if resistance.isPos then
      match nm.lookup c.t0.node, nm.lookup c.t1.node with
      | some n1, some n2 =>
          let g := resistance.recip
          mAdd (mAdd (mAdd (mAdd Gb.1 n1 n1 g) n1 n2 (-g)) n2 n1 (-g)) n2 n2 g
      | _, _ => Gb.1
    else Gb.1
  let b1 :=
    if voltage ≠ 0 then
      let b' :=
        match nm.lookup c.t0.node with
        | some n1 => vAdd Gb.2 n1 (srcInject voltage resistance)
        | none => Gb.2
      match nm.lookup c.t1.node with
      | some n2 => vAdd b' n2 (-(srcInject voltage resistance))
      | none => b'
    else Gb.2
  (G1, b1)

/-- `PhysicsEngine.buildConductanceMatrix(G, b)` applied to the zero matrix
and zero vector of the given size. -/
def EngineState.buildGb (expQ : ℚ → ℚ) (s : EngineState) (m : ℕ) :
    List (List ℚ) × List ℚ :=
  (s.components.map s.compAt).foldl (stampComponent expQ s.nodeIndexMap)
    (List.replicate m (List.replicate m 0), List.replicate m 0)

/-- Row swap `[aug[i], aug[j]] = [aug[j], aug[i]]`. -/
def swapRows (M : List (List ℚ)) (i j : ℕ) : List (List ℚ) :=
  (M.set i (M.getD j [])).set j (M.getD i [])

/-- Partial-pivot search of `gaussianElimination`: the row in `[i, n)` with
the largest `|aug[k][i]|`, scanning from `i` and moving only on a strictly
larger magnitude. -/
def pivotRow (M : List (List ℚ)) (i n : ℕ) : ℕ :=
  (List.range' (i + 1) (n - (i + 1))).foldl
    (fun maxRow k => if absQ (mGetD M maxRow i) < absQ (mGetD M k i) then k else maxRow) i

/-- The inner update of the elimination: `rk[j] -= factor * ri[j]` for
`j = i, ..., n`. -/
def elimRow (ri : List ℚ) (factor : ℚ) (i n : ℕ) (rk : List ℚ) : List ℚ :=
  (List.range' i (n + 1 - i)).foldl
    (fun r j => r.set j (r.getD j 0 - factor * ri.getD j 0)) rk

/-- One outer iteration of the forward elimination: pivot search, row swap,
the `1e-10` near-zero pivot skip, then elimination of the rows below. -/
def fwdStep (n : ℕ) (aug : List (List ℚ)) (i : ℕ) : List (List ℚ) :=
  let aug1 := swapRows aug i (pivotRow aug i n)
  if absQ (mGetD aug1 i i) < 1/10000000000 then aug1
  else
    (List.range' (i + 1) (n - (i + 1))).foldl
      (fun M k => M.set k (elimRow (M.getD i []) (mGetD M k i / mGetD M i i) i n (M.getD k [])))
      aug1

/-- The augmented matrix `[A | b]` after the full forward elimination. -/
def eliminated (A : List (List ℚ)) (b : List ℚ) : List (List ℚ) :=
  (List.range b.length).foldl (fwdStep b.length) (List.zipWith (fun row bi => row ++ [bi]) A b)

/-- Back substitution from the last row up: `k` counts how many trailing
unknowns `x_{n-k}, ..., x_{n-1}` have been computed; a diagonal below
`1e-10` yields `0` for that unknown. -/
def backSubAux (aug : List (List ℚ)) (n : ℕ) : ℕ → List ℚ
  | 0 => []
  | k + 1 =>
      let xs := backSubAux aug n k
      let i := n - (k + 1)
      let xi :=
        if absQ (mGetD aug i i) < 1/10000000000 then 0
        else
          ((List.range' (i + 1) (n - (i + 1))).foldl
            (fun acc j => acc - mGetD aug i j * xs.getD (j - (i + 1)) 0) (mGetD aug i n)) /
            mGetD aug i i
      xi :: xs

/-- `PhysicsEngine.gaussianElimination(A, b)`: `null` exactly when there are
zero unknowns, otherwise forward elimination with partial pivoting on a
copied augmented matrix followed by back substitution. -/
def gaussianElimination (A : List (List ℚ)) (b : List ℚ) : Option (List ℚ) :=
  if b.length = 0 then none
  else some (backSubAux (eliminated A b) b.length b.length)

/-- The node-voltage write-back of `solveCircuit`: walk the node map in
order keeping a solution index that advances only on non-ground entries
still covered by the solution vector; those entries receive the solution
value, every other entry keeps its cached voltage. -/
def applyNodeVoltages (x : List ℚ) : List (ℕ × ℚ) → ℕ → List (ℕ × ℚ)
  | [], _ => []
  | (id, v) :: rest, k =>
      if id ≠ 0 ∧ k < x.length then (id, x.getD k 0) :: applyNodeVoltages x rest (k + 1)
      else (id, v) :: applyNodeVoltages x rest k

/-- Write a solved current into one terminal of one heap object. -/
def setTermCurrent (h : List Comp) (cid tIdx : ℕ) (v : ℚ) : List Comp :=
  match h[cid]? with
  | some c =>
      if tIdx = 0 then h.set cid { c with t0 := { c.t0 with current := v } }
      else if tIdx = 1 then h.set cid { c with t1 := { c.t1 with current := v } }
      else h
  | none => h

/-- `PhysicsEngine.updateComponentValues()`: for every wire whose two
terminals exist, set the wire current to the terminal-voltage difference
over the wire's `0.01 Ω` resistance and write `±current` into the two
referenced terminals. Terminal voltages are only read, never written. -/
def EngineState.updateComponentValues (s : EngineState) : EngineState :=
  let hw := s.wires.foldl
    (fun (acc : List Comp × List Wire) w =>
      match acc.1[w.startComponent]?.bind (fun c => c.getTerminal w.startTerminal),
            acc.1[w.endComponent]?.bind (fun c => c.getTerminal w.endTerminal) with
      | some st, some et =>
          let current := (st.voltage - et.voltage) / (1/100)
          (setTermCurrent (setTermCurrent acc.1 w.startComponent w.startTerminal current)
             w.endComponent w.endTerminal (-current),
           acc.2 ++ [{ w with current := current }])
      | _, _ => (acc.1, acc.2 ++ [w]))
    (s.heap, [])
  { s with heap := hw.1, wires := hw.2 }

/-- `PhysicsEngine.solveCircuit()`: matrix size from node-map entries plus
voltage sources, early return on size zero, assembly, Gaussian elimination,
then the node-voltage write-back and `updateComponentValues`. -/
def EngineState.solveCircuit (expQ : ℚ → ℚ) (s : EngineState) : EngineState :=
  if s.matrixSize = 0 then s
  else
    match gaussianElimination (s.buildGb expQ s.matrixSize).1 (s.buildGb expQ s.matrixSize).2 with
    | none => s
    | some x =>
        EngineState.updateComponentValues { s with nodes := applyNodeVoltages x s.nodes 0 }

/-- `PhysicsEngine.removeComponent(component)`: splice the first occurrence
out of the component list and rebuild; the engine's wire list is not
touched. -/
def EngineState.removeComponent (s : EngineState) (cid : ℕ) : EngineState :=
  if cid ∈ s.components then
    EngineState.rebuildCircuit { s with components := s.components.erase cid }
  else s

/-- `CircuitSimulator` state: the engine plus the simulator's own component
and wire lists (the same objects; wire records are duplicated here, which
is faithful for the reference-tracking facts proved about them). -/
structure SimState where
  engine : EngineState
  simComponents : List ℕ
  simWires : List Wire

/-- `CircuitSimulator.removeComponent(component)`: when present, splice the
component out, delegate to the engine, and filter the simulator's wire list
down to wires referencing neither endpoint to the removed object. -/
def CircuitSimulator.removeComponent (st : SimState) (cid : ℕ) : SimState :=
  if cid ∈ st.simComponents then
    { engine := st.engine.removeComponent cid,
      simComponents := st.simComponents.erase cid,
      simWires := st.simWires.filter
        (fun w => decide (w.startComponent ≠ cid) && decide (w.endComponent ≠ cid)) }
  else st

/-- Allocation of the copied augmented matrix
`A.map((row, i) => [...row, b[i]])`: for each row address of `A`, append a
fresh cell holding the copied row contents extended by the matching entry
of `b`, collecting the fresh addresses. -/
def allocAug (st : List (List ℚ)) (aRows : List ℕ) (bVals : List ℚ) :
    List (List ℚ) × List ℕ :=
  aRows.enum.foldl
    (fun (acc : List (List ℚ) × List ℕ) p =>
      (acc.1 ++ [acc.1.getD p.2 [] ++ [bVals.getD p.1 0]], acc.2 ++ [acc.1.length]))
    (st, [])

/-- Store read of augmented entry `aug[k][j]` through the address list. -/
def stGet (store : List (List ℚ)) (addrs : List ℕ) (k j : ℕ) : ℚ :=
  (store.getD (addrs.getD k 0) []).getD j 0

/-- The swap `[augmented[i], augmented[maxRow]] = ...`: it permutes the
outer (freshly built) array of row references; no cell is written. -/
def swapAddrs (addrs : List ℕ) (i j : ℕ) : List ℕ :=
  (addrs.set i (addrs.getD j 0)).set j (addrs.getD i 0)

/-- Pivot search of the store-level elimination. -/
def pivotRowST (store : List (List ℚ)) (addrs : List ℕ) (i n : ℕ) : ℕ :=
  (List.range' (i + 1) (n - (i + 1))).foldl
    (fun maxRow k =>
      if absQ (stGet store addrs maxRow i) < absQ (stGet store addrs k i) then k else maxRow) i

/-- One outer iteration of the store-level forward elimination: all writes
target cells whose addresses are in the (swapped) augmented address list. -/
def fwdStepST (n : ℕ) (acc : List (List ℚ) × List ℕ) (i : ℕ) : List (List ℚ) × List ℕ :=
  let addrs1 := swapAddrs acc.2 i (pivotRowST acc.1 acc.2 i n)
  if absQ (stGet acc.1 addrs1 i i) < 1/10000000000 then (acc.1, addrs1)
  else
    ((List.range' (i + 1) (n - (i + 1))).foldl
      (fun st k =>
        st.set (addrs1.getD k 0)
          (elimRow (st.getD (addrs1.getD i 0) [])
            (stGet st addrs1 k i / stGet st addrs1 i i) i n
            (st.getD (addrs1.getD k 0) [])))
      acc.1, addrs1)

/-- Store-level `gaussianElimination(A, b)`: `A` is a list of row-cell
addresses and `b` the address of the vector cell, both into `store`; the
returned store shows every mutation the call performed, and the solution is
read off the final augmented cells by the (read-only) back substitution. -/
def gaussianEliminationST (store : List (List ℚ)) (aRows : List ℕ) (bAddr : ℕ) :
    List (List ℚ) × Option (List ℚ) :=
  let n := (store.getD bAddr []).length
  if n = 0 then (store, none)
  else
    let sa := allocAug store aRows (store.getD bAddr [])
    let fin := (List.range n).foldl (fwdStepST n) sa
    (fin.1, some (backSubAux (fin.2.map (fun ad => fin.1.getD ad [])) n n))

/-- A fresh red LED at a given pair of terminal voltages (constructor state
of `LED.ts` with color `red`: forward voltage `2.0`, brightness `0`). -/
def ledAt (v0 v1 : ℚ) : Comp :=
  { data := .led 2 0, temperature := 25, powerDissipation := 0, isBurned := false,
    t0 := { node := 1, voltage := v0, current := 0 },
    t1 := { node := 2, voltage := v1, current := 0 } }

/-- A burned-out capacitor object (`0.0001 F`, rating `25 V`). -/
def burnedCapacitor : Comp :=
  { data := .capacitor (1/10000) 0, temperature := 25, powerDissipation := 0,
    isBurned := true,
    t0 := { node := 1, voltage := 0, current := 0 },
    t1 := { node := 2, voltage := 0, current := 0 } }

/-- A fresh 9 V battery object as constructed by `Battery.ts` (terminal 1's
voltage field is initialized to the source voltage), with node ids 1, 2. -/
def batteryComp : Comp :=
  { data := .battery 9, temperature := 25, powerDissipation := 0, isBurned := false,
    t0 := { node := 1, voltage := 0, current := 0 },
    t1 := { node := 2, voltage := 9, current := 0 } }

/-- A fresh 1 kΩ resistor object with node ids 3, 4. -/
def resistorComp : Comp :=
  { data := .resistor 1000, temperature := 25, powerDissipation := 0, isBurned := false,
    t0 := { node := 3, voltage := 0, current := 0 },
    t1 := { node := 4, voltage := 0, current := 0 } }

/-- An engine holding a single 9 V battery, with the node map as
`rebuildCircuit` builds it. -/
def batteryEngine : EngineState :=
  EngineState.rebuildCircuit { heap := [batteryComp], components := [0], wires := [], nodes := [] }

/-- A wire object joining battery terminal 1 to resistor terminal 0. -/
def wireBR : Wire :=
  { startComponent := 0, startTerminal := 1, endComponent := 1, endTerminal := 0, current := 0 }

/-- A simulator holding the battery and the resistor joined by one wire. -/
def simBR : SimState :=
  { engine := { heap := [batteryComp, resistorComp], components := [0, 1],
                wires := [wireBR], nodes := [] },
    simComponents := [0, 1],
    simWires := [wireBR] }

/-- A fresh `0.0001 F` capacitor with `100 V` across its terminals. -/
def chargingCap : Comp :=
  { data := .capacitor (1/10000) 0, temperature := 25, powerDissipation := 0,
    isBurned := false,
    t0 := { node := 1, voltage := 100, current := 0 },
    t1 := { node := 2, voltage := 0, current := 0 } }

/-- Spec-side count (from the spec's words, for comparison with the code's
`matrixSize`): the number of non-ground nodes of the current partition,
i.e. the number of distinct non-zero node ids carried by the listed
components' terminals. -/
def EngineState.specNonGroundNodeCount (s : EngineState) : ℕ :=
  (s.slotNodes.dedup.filter (fun id => decide (id ≠ 0))).length

/-- An engine whose node map holds a ground entry (id 0) and one
non-ground entry. -/
def groundEngine : EngineState :=
  { heap := [], components := [], wires := [], nodes := [(0, 0), (7, 0)] }

/-! Theorems. -/

/-- JS `Math.min` never exceeds its second argument. -/
theorem minQ_le_right (x y : ℚ) : minQ x y ≤ y := by
  unfold minQ
  split_ifs with h
  · exact h
  · exact le_refl y

/-- C3 counterexample: a burned-out capacitor does not report infinite
resistance to the solver — `getResistance()` still returns its `0.1 Ω`
ESR, refuting the claim that every burned-out device kind (including the
capacitor) reports an open circuit. -/
theorem c3_burned_capacitor_finite_resistance :
    burnedCapacitor.isBurned = true ∧
    Comp.getResistance (fun _ => 1) burnedCapacitor = Qinf.fin (1/10) ∧
    Comp.getResistance (fun _ => 1) burnedCapacitor ≠ Qinf.inf := by
  refine ⟨rfl, by simp [burnedCapacitor, Comp.getResistance], ?_⟩
  simp [burnedCapacitor, Comp.getResistance]

/-- C3 amended: only the resistor, LED and motor report infinite resistance
once burned; a burned battery keeps reporting its `0.1 Ω` internal
resistance (its source voltage reads `0`), a burned capacitor its `0.1 Ω`
ESR, and a burned switch its open/closed resistance. -/
theorem c3_amended_burnout_resistance (expQ : ℚ → ℚ) (c : Comp)
    (hb : c.isBurned = true) :
    (∀ r, c.data = CompData.resistor r → c.getResistance expQ = Qinf.inf) ∧
    (∀ vf br, c.data = CompData.led vf br → c.getResistance expQ = Qinf.inf) ∧
    (∀ rpm ang, c.data = CompData.motor rpm ang → c.getResistance expQ = Qinf.inf) ∧
    (∀ v, c.data = CompData.battery v →
      c.getResistance expQ = Qinf.fin (1/10) ∧ c.getVoltage = 0) ∧
    (∀ cap q, c.data = CompData.capacitor cap q → c.getResistance expQ = Qinf.fin (1/10)) ∧
    (∀ o, c.data = CompData.switch o →
      c.getResistance expQ = Qinf.fin (if o then 1000000000 else 1/100)) := by
  refine ⟨?_, ?_, ?_, ?_, ?_, ?_⟩
  · intro r hd; simp [Comp.getResistance, hd, hb]
  · intro vf br hd; simp [Comp.getResistance, hd, hb]
  · intro rpm ang hd; simp [Comp.getResistance, hd, hb]
  · intro v hd; exact ⟨by simp [Comp.getResistance, hd], by simp [Comp.getVoltage, hd, hb]⟩
  · intro cap q hd; simp [Comp.getResistance, hd]
  · intro o hd; cases o <;> simp [Comp.getResistance, hd]

/-- C3 amended, witness at the burned capacitor. -/
theorem c3_amended_burnout_resistance_witness :
    burnedCapacitor.isBurned = true ∧
    Comp.getResistance (fun _ => 1) burnedCapacitor = Qinf.fin (1/10) :=
  ⟨rfl,
    (c3_amended_burnout_resistance (fun _ => 1) burnedCapacitor rfl).2.2.2.2.1
      (1/10000) 0 rfl⟩

/-- C2: the node-id generator actually used by every concrete component
class is `Math.floor(Math.random() * 1000000)`, not the base-class counter:
two distinct random draws can yield the same node id (here `0.5` and
`1500001/3000000` both give `500000`), while the shadowed base-class
counter would have issued strictly increasing, distinct ids. -/
theorem c2_random_node_ids_can_collide :
    Resistor.generateNodeId (1/2) = 500000 ∧
    Resistor.generateNodeId (1500001/3000000) = 500000 ∧
    (1/2 : ℚ) ≠ 1500001/3000000 ∧
    (∀ k : ℕ, (Component.generateNodeId k).1 < (Component.generateNodeId k).2 ∧
      (Component.generateNodeId ((Component.generateNodeId k).2)).1 ≠
        (Component.generateNodeId k).1) := by
  refine ⟨?_, ?_, by norm_num, fun k => ⟨Nat.lt_succ_self k, Nat.succ_ne_self k⟩⟩
  · unfold Resistor.generateNodeId; norm_num
  · unfold Resistor.generateNodeId
    rw [show (1500001/3000000 : ℚ) * 1000000 = 1500001/3 by norm_num]
    norm_num

/-- C7 counterexample: at 10 V across a fresh red LED, `getCurrent()`
returns the clamped `0.045 A`, not `(V - 2)/10 = 0.8 A`, refuting the
unclamped linear formula for voltages at or above the threshold. -/
theorem c7_led_current_clamped_at_ten_volts :
    Comp.getVoltage (ledAt 10 0) = 10 ∧
    Comp.getCurrent (ledAt 10 0) = 9/200 ∧
    (10 - 2 : ℚ) / 10 = 4/5 ∧
    Comp.getCurrent (ledAt 10 0) ≠ (Comp.getVoltage (ledAt 10 0) - 2) / 10 := by
  refine ⟨by norm_num [ledAt, Comp.getVoltage], ?_, by norm_num, ?_⟩
  · norm_num [ledAt, Comp.getCurrent, minQ]
  · norm_num [ledAt, Comp.getCurrent, Comp.getVoltage, minQ]

/-- C7 amended: a red LED (forward voltage 2 V, forward resistance 10 Ω)
conducts no current below 2 V; at or above 2 V a non-burned LED conducts
`min((V - 2)/10, 0.045)` (the 1.5 × 30 mA clamp applies to the formula
itself; a burned LED conducts 0); the current never exceeds `0.045 A`; and
`update` sets the burned flag exactly when it was already set, the current
exceeds `2 × 0.03 A`, or the shared thermal model pushes the temperature
past the LED's 125 °C limit. -/
theorem c7_amended_led_current_and_burnout (expQ : ℚ → ℚ) (dt : ℚ) (c : Comp) (br : ℚ)
    (hd : c.data = CompData.led 2 br) :
    (c.getVoltage < 2 → c.getCurrent = 0) ∧
    (c.isBurned = false → 2 ≤ c.getVoltage →
      c.getCurrent = minQ ((c.getVoltage - 2) / 10) (9/200)) ∧
    c.getCurrent ≤ 9/200 ∧
    ((LED.update expQ dt c).isBurned = true ↔
      (c.isBurned = true ∨ 3/100 * 2 < c.getCurrent ∨
        125 < c.temperature +
          (25 + c.getVoltage * c.getCurrent * 10 - c.temperature) * (1 - expQ (-dt / 500)))) := by
  have hv : c.getVoltage = c.t0.voltage - c.t1.voltage := by simp [Comp.getVoltage, hd]
  have h45 : (3/100 * (3/2) : ℚ) = 9/200 := by norm_num
  refine ⟨?_, ?_, ?_, ?_⟩
  · intro hlt
    rw [hv] at hlt
    cases hcb : c.isBurned <;> simp [Comp.getCurrent, hd, hcb, not_le.mpr hlt]
  · intro hb h2
    rw [hv] at h2 ⊢
    simp [Comp.getCurrent, hd, hb, h2, h45]
  · cases hcb : c.isBurned
    · simp only [Comp.getCurrent, hd, hcb, Bool.false_eq_true, if_false]
      split_ifs with h2
      · exact le_trans (minQ_le_right _ _) (by norm_num)
      · norm_num
    · simp [Comp.getCurrent, hd, hcb]
      norm_num
  · simp only [LED.update, hd, Comp.updateTemperature, CompData.maxTemperature]
    simp [Comp.getVoltage, hd, Bool.or_eq_true, decide_eq_true_eq]
    exact or_assoc

/-- C7 amended, witness at a fresh red LED with 3 V applied. -/
theorem c7_amended_led_current_and_burnout_witness :
    (ledAt 3 0).isBurned = false ∧ 2 ≤ Comp.getVoltage (ledAt 3 0) ∧
    Comp.getCurrent (ledAt 3 0) = minQ ((Comp.getVoltage (ledAt 3 0) - 2) / 10) (9/200) :=
  ⟨rfl, by norm_num [ledAt, Comp.getVoltage],
    (c7_amended_led_current_and_burnout (fun _ => 1) 1 (ledAt 3 0) 0 rfl).2.1 rfl
      (by norm_num [ledAt, Comp.getVoltage])⟩

/-- C8: a capacitor always reports `charge / capacitance` as its voltage;
one non-burned `update(dt)` integrates `I = (V_a - V_b) / esr` into the
charge, and if the accumulated `|charge|` exceeds `ratedVoltage ×
capacitance` the capacitor burns out with its charge reset to `0`,
otherwise the new charge is `q + I·dt` and the reported voltage is again
charge over capacitance. -/
theorem c8_capacitor_charge_voltage_roundtrip (expQ : ℚ → ℚ) (dt : ℚ) (c : Comp)
    (cap q : ℚ) (hd : c.data = CompData.capacitor cap q) :
    c.getVoltage = q / cap ∧
    (c.isBurned = false →
      (25 * cap < absQ (q + (c.t0.voltage - c.t1.voltage) / (1/10) * dt) →
        (Capacitor.update expQ dt c).isBurned = true ∧
        (Capacitor.update expQ dt c).data = CompData.capacitor cap 0) ∧
      (¬ 25 * cap < absQ (q + (c.t0.voltage - c.t1.voltage) / (1/10) * dt) →
        (Capacitor.update expQ dt c).data =
          CompData.capacitor cap (q + (c.t0.voltage - c.t1.voltage) / (1/10) * dt) ∧
        Comp.getVoltage (Capacitor.update expQ dt c) =
          (q + (c.t0.voltage - c.t1.voltage) / (1/10) * dt) / cap)) := by
  refine ⟨by simp [Comp.getVoltage, hd], ?_⟩
  intro hb
  have hdiv : (c.t0.voltage - c.t1.voltage) / (1/10) = (c.t0.voltage - c.t1.voltage) * 10 := by
    ring
  constructor
  · intro hlt
    rw [hdiv] at hlt
    constructor
    · simp [Capacitor.update, hd, hb, Comp.updateTemperature, hlt]
    · simp [Capacitor.update, hd, hb, Comp.updateTemperature, hlt]
  · intro hnlt
    rw [hdiv] at hnlt
    constructor
    · simp [Capacitor.update, hd, hb, Comp.updateTemperature, hnlt]
    · simp [Capacitor.update, hd, hb, Comp.updateTemperature, Comp.getVoltage, hnlt]

/-- C8, witness: a `0.0001 F` capacitor seeing 100 V for one second
overshoots its `25 V × C` charge bound, burns out, and resets its charge. -/
theorem c8_capacitor_charge_voltage_roundtrip_witness :
    chargingCap.isBurned = false ∧
    25 * (1/10000 : ℚ) <
      absQ (0 + (chargingCap.t0.voltage - chargingCap.t1.voltage) / (1/10) * 1) ∧
    (Capacitor.update (fun _ => 1) 1 chargingCap).isBurned = true ∧
    (Capacitor.update (fun _ => 1) 1 chargingCap).data = CompData.capacitor (1/10000) 0 := by
  have h := ((c8_capacitor_charge_voltage_roundtrip (fun _ => 1) 1 chargingCap
    (1/10000) 0 rfl).2 rfl).1 (by norm_num [chargingCap, absQ])
  exact ⟨rfl, by norm_num [chargingCap, absQ], h.1, h.2⟩

set_option maxHeartbeats 2000000 in
/-- Two successive wire merges commute as label rewrites: collapsing the
pair read after the first merge equals collapsing in the other order. -/
theorem collapse_comm (a b p q x : ℕ) :
    collapse (collapse a b p) (collapse a b q) (collapse a b x)
      = collapse (collapse p q a) (collapse p q b) (collapse p q x) := by
  unfold collapse
  split_ifs <;> omega

/-- Collapsing a pair sends the left label to the minimum. -/
theorem collapse_left (a b : ℕ) : collapse a b a = min a b := by
  unfold collapse
  split_ifs <;> omega

/-- Collapsing a pair sends the right label to the minimum. -/
theorem collapse_right (a b : ℕ) : collapse a b b = min a b := by
  unfold collapse
  split_ifs <;> omega

/-- Collapsing an already-merged pair is the identity rewrite. -/
theorem collapse_self (a x : ℕ) : collapse a a x = x := by
  unfold collapse
  split_ifs <;> omega

/-- Every merge step is a uniform rewrite of the terminal labels. -/
theorem mergeStep_is_map (ts : List ℕ) (w : WireEnd × WireEnd) :
    ∃ f, mergeStep ts w = List.map f ts := by
  unfold mergeStep
  rcases h1 : w.1.label ts with _ | a <;> rcases h2 : w.2.label ts with _ | b
  · exact ⟨id, (List.map_id ts).symm⟩
  · exact ⟨id, (List.map_id ts).symm⟩
  · exact ⟨id, (List.map_id ts).symm⟩
  · exact ⟨collapse a b, rfl⟩

/-- A merge step preserves the number of terminal slots. -/
theorem mergeStep_length (ts : List ℕ) (w : WireEnd × WireEnd) :
    (mergeStep ts w).length = ts.length := by
  obtain ⟨f, hf⟩ := mergeStep_is_map ts w
  rw [hf, List.length_map]

/-- The wire loop preserves the number of terminal slots. -/
theorem rebuildMerge_length (ws : List (WireEnd × WireEnd)) :
    ∀ ts, (rebuildMerge ts ws).length = ts.length := by
  induction ws with
  | nil => intro ts; rfl
  | cons w rest ih =>
      intro ts
      show (rebuildMerge (mergeStep ts w) rest).length = ts.length
      rw [ih, mergeStep_length]

/-- A merge step of a wire between two listed terminals rewrites every slot
by collapsing the two looked-up labels. -/
theorem mergeStep_internal_eq (ts : List ℕ) (i j : ℕ) (hi : i < ts.length)
    (hj : j < ts.length) :
    mergeStep ts (WireEnd.listed i, WireEnd.listed j) = ts.map (collapse ts[i] ts[j]) := by
  simp [mergeStep, WireEnd.label, List.getElem?_eq_getElem hi, List.getElem?_eq_getElem hj]

/-- Merge steps of wires between listed terminals commute exactly. -/
theorem mergeStep_comm (ts : List ℕ) (w w' : WireEnd × WireEnd)
    (hw : InternalWire ts.length w) (hw' : InternalWire ts.length w') :
    mergeStep (mergeStep ts w) w' = mergeStep (mergeStep ts w') w := by
  obtain ⟨i, j, rfl, hi, hj⟩ := hw
  obtain ⟨k, l, rfl, hk, hl⟩ := hw'
  have hk1 : k < (ts.map (collapse ts[i] ts[j])).length := by rw [List.length_map]; exact hk
  have hl1 : l < (ts.map (collapse ts[i] ts[j])).length := by rw [List.length_map]; exact hl
  have hi1 : i < (ts.map (collapse ts[k] ts[l])).length := by rw [List.length_map]; exact hi
  have hj1 : j < (ts.map (collapse ts[k] ts[l])).length := by rw [List.length_map]; exact hj
  rw [mergeStep_internal_eq ts i j hi hj, mergeStep_internal_eq _ k l hk1 hl1,
    mergeStep_internal_eq ts k l hk hl, mergeStep_internal_eq _ i j hi1 hj1,
    List.getElem_map, List.getElem_map, List.getElem_map, List.getElem_map,
    List.map_map, List.map_map]
  exact List.map_congr_left (fun x _ => collapse_comm ts[i] ts[j] ts[k] ts[l] x)

/-- The wire loop gives the same terminal labeling for permuted wire lists,
provided every wire joins two listed terminals. -/
theorem rebuildMerge_perm {ws1 ws2 : List (WireEnd × WireEnd)} (h : ws1.Perm ws2) :
    ∀ ts, (∀ w ∈ ws1, InternalWire ts.length w) →
      rebuildMerge ts ws1 = rebuildMerge ts ws2 := by
  induction h with
  | nil => intro ts _; rfl
  | cons x h ih =>
      intro ts hint
      show rebuildMerge (mergeStep ts x) _ = rebuildMerge (mergeStep ts x) _
      exact ih (mergeStep ts x)
        (fun w hw => by rw [mergeStep_length]; exact hint w (List.mem_cons_of_mem x hw))
  | swap x y l =>
      intro ts hint
      show rebuildMerge (mergeStep (mergeStep ts y) x) l
          = rebuildMerge (mergeStep (mergeStep ts x) y) l
      rw [mergeStep_comm ts y x (hint y (by simp)) (hint x (by simp))]
  | trans h12 h23 ih1 ih2 =>
      intro ts hint
      rw [ih1 ts hint, ih2 ts (fun w hw => hint w (h12.mem_iff.mpr hw))]

/-- A merge step keeps equal labels of two listed terminals equal. -/
theorem internal_label_eq_preserved (ts : List ℕ) (v w : WireEnd × WireEnd)
    (hw : InternalWire ts.length w) (h : w.1.label ts = w.2.label ts) :
    w.1.label (mergeStep ts v) = w.2.label (mergeStep ts v) := by
  obtain ⟨i, j, rfl, hi, hj⟩ := hw
  obtain ⟨f, hf⟩ := mergeStep_is_map ts v
  simp only [WireEnd.label, hf, List.getElem?_map] at h ⊢
  rw [h]

/-- After its own merge step, a wire's two endpoint labels agree. -/
theorem mergeStep_makes_labels_eq (ts : List ℕ) (w : WireEnd × WireEnd)
    (hw : InternalWire ts.length w) :
    w.1.label (mergeStep ts w) = w.2.label (mergeStep ts w) := by
  obtain ⟨i, j, rfl, hi, hj⟩ := hw
  rw [mergeStep_internal_eq ts i j hi hj]
  simp only [WireEnd.label, List.getElem?_map,
    List.getElem?_eq_getElem hi, List.getElem?_eq_getElem hj]
  simp [collapse_left, collapse_right]

/-- The wire loop keeps equal labels of two listed terminals equal. -/
theorem rebuildMerge_label_eq_preserved (ws : List (WireEnd × WireEnd)) :
    ∀ ts (w : WireEnd × WireEnd), InternalWire ts.length w →
      w.1.label ts = w.2.label ts →
      w.1.label (rebuildMerge ts ws) = w.2.label (rebuildMerge ts ws) := by
  induction ws with
  | nil => intro ts w _ h; exact h
  | cons v rest ih =>
      intro ts w hw h
      show w.1.label (rebuildMerge (mergeStep ts v) rest) = _
      obtain ⟨i, j, hwe, hi, hj⟩ := hw
      exact ih (mergeStep ts v) w
        ⟨i, j, hwe, by rw [mergeStep_length]; exact hi, by rw [mergeStep_length]; exact hj⟩
        (internal_label_eq_preserved ts v w ⟨i, j, hwe, hi, hj⟩ h)

/-- After the full wire loop, every processed wire between listed terminals
has equal endpoint labels. -/
theorem rebuildMerge_endpoints_eq (ws : List (WireEnd × WireEnd)) :
    ∀ ts, (∀ w ∈ ws, InternalWire ts.length w) →
      ∀ w ∈ ws, w.1.label (rebuildMerge ts ws) = w.2.label (rebuildMerge ts ws) := by
  induction ws with
  | nil => intro ts _ w hw; exact absurd hw (List.not_mem_nil w)
  | cons v rest ih =>
      intro ts hint w hw
      rcases List.mem_cons.mp hw with rfl | hw'
      · show w.1.label (rebuildMerge (mergeStep ts w) rest) = _
        have hwint : InternalWire ts.length w := hint w (List.mem_cons_self w rest)
        obtain ⟨i, j, hwe, hi, hj⟩ := hwint
        exact rebuildMerge_label_eq_preserved rest (mergeStep ts w) w
          ⟨i, j, hwe, by rw [mergeStep_length]; exact hi, by rw [mergeStep_length]; exact hj⟩
          (mergeStep_makes_labels_eq ts w ⟨i, j, hwe, hi, hj⟩)
      · show w.1.label (rebuildMerge (mergeStep ts v) rest) = _
        exact ih (mergeStep ts v)
          (fun u hu => by
            obtain ⟨i, j, hue, hi, hj⟩ := hint u (List.mem_cons_of_mem v hu)
            exact ⟨i, j, hue, by rw [mergeStep_length]; exact hi,
              by rw [mergeStep_length]; exact hj⟩) w hw'

/-- A merge step of a wire whose endpoint labels already agree is a no-op. -/
theorem mergeStep_of_label_eq (ts : List ℕ) (w : WireEnd × WireEnd)
    (h : w.1.label ts = w.2.label ts) : mergeStep ts w = ts := by
  unfold mergeStep
  rcases h1 : w.1.label ts with _ | a <;> rcases h2 : w.2.label ts with _ | b
  · rfl
  · rfl
  · rfl
  · rw [h1, h2] at h
    obtain rfl : a = b := Option.some_injective _ h
    exact (List.map_congr_left (fun x _ => collapse_self a x)).trans (List.map_id ts)

/-- Re-running the wire loop on a labeling in which every wire's endpoints
already agree changes nothing. -/
theorem rebuildMerge_noop (ws : List (WireEnd × WireEnd)) (ts : List ℕ)
    (h : ∀ w ∈ ws, w.1.label ts = w.2.label ts) : rebuildMerge ts ws = ts := by
  induction ws with
  | nil => rfl
  | cons v rest ih =>
      show rebuildMerge (mergeStep ts v) rest = ts
      rw [mergeStep_of_label_eq ts v (h v (List.mem_cons_self v rest))]
      exact ih (fun w hw => h w (List.mem_cons_of_mem v hw))

/-- C4 counterexample: with a wire list reachable through the engine's own
API (two wires whose far ends reference a terminal of a component object
that is no longer in the engine's component list — `removeComponent` leaves
such wires in place), the wire loop of `rebuildCircuit` is order-dependent:
the two listed terminals labeled 3 and 9, each wired to an unlisted
terminal labeled 5, end up in different nodes for one wire order and in the
same node for the permuted order. -/
theorem c4_merge_order_dependent_with_unlisted_wire :
    [((WireEnd.listed 0, WireEnd.unlisted 5)), ((WireEnd.listed 1, WireEnd.unlisted 5))].Perm
      [((WireEnd.listed 1, WireEnd.unlisted 5)), ((WireEnd.listed 0, WireEnd.unlisted 5))] ∧
    rebuildMerge [3, 9]
      [(WireEnd.listed 0, WireEnd.unlisted 5), (WireEnd.listed 1, WireEnd.unlisted 5)] = [3, 5] ∧
    rebuildMerge [3, 9]
      [(WireEnd.listed 1, WireEnd.unlisted 5), (WireEnd.listed 0, WireEnd.unlisted 5)] = [3, 3] ∧
    ([3, 5] : List ℕ).getD 0 0 ≠ ([3, 5] : List ℕ).getD 1 0 ∧
    ([3, 3] : List ℕ).getD 0 0 = ([3, 3] : List ℕ).getD 1 0 :=
  ⟨List.Perm.swap _ _ _, by decide, by decide, by decide, by decide⟩

/-- C4 amended: provided every wire joins two terminals of listed
components (no dangling wires), the wire loop of `rebuildCircuit` is
order-independent and idempotent — permuted wire lists produce the very
same terminal labeling (hence the same partition), re-running the loop on
its own output changes nothing, and appending a duplicate wire changes
nothing. -/
theorem c4_amended_merge_order_independent_idempotent (ts : List ℕ)
    (ws1 ws2 : List (WireEnd × WireEnd))
    (hint : ∀ w ∈ ws1, InternalWire ts.length w) :
    (ws1.Perm ws2 → rebuildMerge ts ws1 = rebuildMerge ts ws2) ∧
    rebuildMerge (rebuildMerge ts ws1) ws1 = rebuildMerge ts ws1 ∧
    (∀ w ∈ ws1, rebuildMerge ts (ws1 ++ [w]) = rebuildMerge ts ws1) := by
  have hframe : ∀ w ∈ ws1, InternalWire (rebuildMerge ts ws1).length w := by
    intro w hw
    rw [rebuildMerge_length]
    exact hint w hw
  have heq : ∀ w ∈ ws1,
      w.1.label (rebuildMerge ts ws1) = w.2.label (rebuildMerge ts ws1) :=
    rebuildMerge_endpoints_eq ws1 ts hint
  refine ⟨fun hperm => rebuildMerge_perm hperm ts hint, ?_, ?_⟩
  · exact rebuildMerge_noop ws1 (rebuildMerge ts ws1) heq
  · intro w hw
    show List.foldl mergeStep ts (ws1 ++ [w]) = rebuildMerge ts ws1
    rw [List.foldl_append]
    exact mergeStep_of_label_eq _ w (heq w hw)

/-- C4 amended, witness on the two-terminal list `[5, 2]` with the single
internal wire joining the two slots. -/
theorem c4_amended_merge_order_independent_idempotent_witness :
    (∀ w ∈ [(WireEnd.listed 0, WireEnd.listed 1)],
      InternalWire ([5, 2] : List ℕ).length w) ∧
    rebuildMerge (rebuildMerge [5, 2] [(WireEnd.listed 0, WireEnd.listed 1)])
        [(WireEnd.listed 0, WireEnd.listed 1)]
      = rebuildMerge [5, 2] [(WireEnd.listed 0, WireEnd.listed 1)] := by
  have hint : ∀ w ∈ [(WireEnd.listed 0, WireEnd.listed 1)],
      InternalWire ([5, 2] : List ℕ).length w := by
    intro w hw
    rcases List.mem_singleton.mp hw with rfl
    exact ⟨0, 1, rfl, by simp, by simp⟩
  exact ⟨hint,
    (c4_amended_merge_order_independent_idempotent [5, 2]
      [(WireEnd.listed 0, WireEnd.listed 1)] [(WireEnd.listed 0, WireEnd.listed 1)]
      hint).2.1⟩

/-- Back substitution produces one value per processed row. -/
theorem backSubAux_length (aug : List (List ℚ)) (n : ℕ) :
    ∀ k, (backSubAux aug n k).length = k := by
  intro k
  induction k with
  | zero => rfl
  | succ k ih => simp [backSubAux, ih]

/-- Back substitution yields `0` for every unknown whose diagonal magnitude
is below the `1e-10` tolerance. -/
theorem backSubAux_small_diag_zero (aug : List (List ℚ)) (n : ℕ) :
    ∀ k, k ≤ n → ∀ m, m < k →
      absQ (mGetD aug (n - k + m) (n - k + m)) < 1/10000000000 →
      (backSubAux aug n k).getD m 0 = 0 := by
  intro k
  induction k with
  | zero => intro _ m hm; exact absurd hm (Nat.not_lt_zero m)
  | succ k ih =>
      intro hk m hm hsmall
      match m with
      | 0 =>
          have h0 : n - (k + 1) + 0 = n - (k + 1) := by omega
          rw [h0] at hsmall
          simp only [backSubAux, List.getD_cons_zero]
          rw [if_pos hsmall]
      | m' + 1 =>
          have hidx : n - (k + 1) + (m' + 1) = n - k + m' := by omega
          rw [hidx] at hsmall
          simp only [backSubAux, List.getD_cons_succ]
          exact ih (by omega) m' (by omega) hsmall

/-- C6: the Gaussian-elimination solver returns `null` exactly when the
system has zero unknowns; otherwise it always returns a solution vector
with one entry per unknown (the embedding is a total function, so no
exception is possible), and every unknown whose diagonal in the eliminated
augmented matrix has magnitude below `1e-10` — in particular every row
whose pivot was skipped in forward elimination — receives `0`. -/
theorem c6_gaussian_elimination_total_with_zero_fallback (A : List (List ℚ)) (b : List ℚ) :
    (gaussianElimination A b = none ↔ b.length = 0) ∧
    (∀ x, gaussianElimination A b = some x → x.length = b.length) ∧
    (∀ x i, gaussianElimination A b = some x → i < b.length →
      absQ (mGetD (eliminated A b) i i) < 1/10000000000 → x.getD i 0 = 0) := by
  refine ⟨?_, ?_, ?_⟩
  · unfold gaussianElimination
    split_ifs with h
    · simp [h]
    · simp [h]
  · intro x hx
    unfold gaussianElimination at hx
    by_cases h : b.length = 0
    · rw [if_pos h] at hx
      exact absurd hx (by simp)
    · rw [if_neg h] at hx
      obtain rfl := Option.some_injective _ hx
      exact backSubAux_length _ _ _
  · intro x i hx hi hsmall
    unfold gaussianElimination at hx
    by_cases h : b.length = 0
    · rw [if_pos h] at hx
      exact absurd hx (by simp)
    · rw [if_neg h] at hx
      obtain rfl := Option.some_injective _ hx
      have hidx : b.length - b.length + i = i := by omega
      exact backSubAux_small_diag_zero (eliminated A b) b.length b.length (le_refl _) i hi
        (by rw [hidx]; exact hsmall)

/-- C6, witness on the singular 1×1 system `[[0]]·x = [0]`: the solver
returns a solution (not `null`), and the below-tolerance diagonal yields
`0` for the unknown. -/
theorem c6_gaussian_elimination_witness :
    absQ (mGetD (eliminated [[(0:ℚ)]] [0]) 0 0) < 1/10000000000 ∧
    gaussianElimination [[(0:ℚ)]] [0] = some [0] ∧
    ([0] : List ℚ).getD 0 0 = 0 := by
  have hr : List.range 1 = [0] := rfl
  have hr0 : List.range' 1 0 = [] := rfl
  have helim : eliminated [[(0:ℚ)]] [0] = [[0, 0]] := by
    norm_num [eliminated, fwdStep, swapRows, pivotRow, mGetD, absQ, hr, hr0]
  have hsmall : absQ (mGetD (eliminated [[(0:ℚ)]] [0]) 0 0) < 1/10000000000 := by
    rw [helim]
    norm_num [mGetD, absQ]
  have hsome : gaussianElimination [[(0:ℚ)]] [0] = some [0] := by
    norm_num [gaussianElimination, eliminated, fwdStep, swapRows, pivotRow, mGetD, absQ,
      backSubAux, hr, hr0]
  exact ⟨hsmall, hsome,
    (c6_gaussian_elimination_total_with_zero_fallback [[(0:ℚ)]] [0]).2.2 [0] 0 hsome
      (by norm_num) hsmall⟩

/-- C9 counterexample: removing the battery (heap id 0) from the simulator
filters the wire out of the simulator's own wire list, but the physics
engine — whose wire list is the one every subsequent rebuild and solve
traverses — still holds the wire referencing the removed component. -/
theorem c9_engine_keeps_dangling_wire :
    (CircuitSimulator.removeComponent simBR 0).engine.wires = [wireBR] ∧
    wireBR.startComponent = 0 ∧
    0 ∉ (CircuitSimulator.removeComponent simBR 0).engine.components ∧
    (CircuitSimulator.removeComponent simBR 0).simWires = [] := by
  refine ⟨rfl, rfl, by decide, rfl⟩

/-- C9 amended: removing a component present in the simulator removes every
wire referencing it from the simulator's own wire list, but the physics
engine's wire list — used by subsequent rebuilds and solves — is left
unchanged, dangling wires included. -/
theorem c9_amended_sim_wires_filtered_engine_wires_kept (st : SimState) (cid : ℕ)
    (hmem : cid ∈ st.simComponents) :
    (∀ w ∈ (CircuitSimulator.removeComponent st cid).simWires,
      w.startComponent ≠ cid ∧ w.endComponent ≠ cid) ∧
    (CircuitSimulator.removeComponent st cid).engine.wires = st.engine.wires := by
  constructor
  · intro w hw
    unfold CircuitSimulator.removeComponent at hw
    rw [if_pos hmem] at hw
    simp only [List.mem_filter, Bool.and_eq_true, decide_eq_true_eq] at hw
    exact hw.2
  · unfold CircuitSimulator.removeComponent
    rw [if_pos hmem]
    show (st.engine.removeComponent cid).wires = st.engine.wires
    unfold EngineState.removeComponent
    split_ifs with h
    · rfl
    · rfl

/-- C9 amended, witness at the battery–resistor simulator. -/
theorem c9_amended_witness :
    0 ∈ simBR.simComponents ∧
    (CircuitSimulator.removeComponent simBR 0).engine.wires = simBR.engine.wires :=
  ⟨by decide, (c9_amended_sim_wires_filtered_engine_wires_kept simBR 0 (by decide)).2⟩

/-- Reading a list at an index below a set-index target is unaffected. -/
theorem getD_set_ne_frame (l : List (List ℚ)) (i j : ℕ) (v : List ℚ) (h : i ≠ j) :
    (l.set i v).getD j [] = l.getD j [] := by
  rw [List.getD_eq_getElem?_getD, List.getD_eq_getElem?_getD, List.getElem?_set_ne h]

/-- Reading below the original length is unaffected by appended cells. -/
theorem getD_append_frame (l l2 : List (List ℚ)) (j : ℕ) (h : j < l.length) :
    (l ++ l2).getD j [] = l.getD j [] := by
  rw [List.getD_eq_getElem?_getD, List.getD_eq_getElem?_getD, List.getElem?_append,
    if_pos h]

/-- The allocation fold of `allocAug` only appends fresh cells: the original
store is a prefix, one address per processed row is collected, and every
collected address is either inherited or at least the original length. -/
theorem allocAug_foldl_spec (bVals : List ℚ) (l : List (ℕ × ℕ)) :
    ∀ (s : List (List ℚ)) (ad : List ℕ),
      (∃ rest, (l.foldl
        (fun (acc : List (List ℚ) × List ℕ) p =>
          (acc.1 ++ [acc.1.getD p.2 [] ++ [bVals.getD p.1 0]], acc.2 ++ [acc.1.length]))
        (s, ad)).1 = s ++ rest) ∧
      (l.foldl
        (fun (acc : List (List ℚ) × List ℕ) p =>
          (acc.1 ++ [acc.1.getD p.2 [] ++ [bVals.getD p.1 0]], acc.2 ++ [acc.1.length]))
        (s, ad)).2.length = ad.length + l.length ∧
      (∀ x ∈ (l.foldl
        (fun (acc : List (List ℚ) × List ℕ) p =>
          (acc.1 ++ [acc.1.getD p.2 [] ++ [bVals.getD p.1 0]], acc.2 ++ [acc.1.length]))
        (s, ad)).2, x ∈ ad ∨ s.length ≤ x) := by
  induction l with
  | nil => exact fun s ad => ⟨⟨[], (List.append_nil s).symm⟩, by simp, fun x hx => Or.inl hx⟩
  | cons p rest ih =>
      intro s ad
      obtain ⟨⟨r1, hr1⟩, hlen, hmem⟩ :=
        ih (s ++ [s.getD p.2 [] ++ [bVals.getD p.1 0]]) (ad ++ [s.length])
      refine ⟨⟨[s.getD p.2 [] ++ [bVals.getD p.1 0]] ++ r1, by
        simpa [List.append_assoc] using hr1⟩, ?_, ?_⟩
      · rw [List.foldl_cons, hlen]
        simp only [List.length_append, List.length_cons, List.length_nil]
        omega
      · intro x hx
        rw [List.foldl_cons] at hx
        rcases hmem x hx with hx' | hx'
        · rcases List.mem_append.mp hx' with h | h
          · exact Or.inl h
          · exact Or.inr (le_of_eq (List.mem_singleton.mp h).symm)
        · refine Or.inr ?_
          simp only [List.length_append, List.length_cons, List.length_nil] at hx'
          omega

/-- The pivot row chosen by the store-level pivot search stays below `n`. -/
theorem pivotRowST_lt (store : List (List ℚ)) (addrs : List ℕ) (i n : ℕ) (hi : i < n) :
    pivotRowST store addrs i n < n := by
  unfold pivotRowST
  have : ∀ (l : List ℕ) (acc : ℕ), acc < n → (∀ k ∈ l, k < n) →
      (l.foldl (fun maxRow k =>
        if absQ (stGet store addrs maxRow i) < absQ (stGet store addrs k i) then k
        else maxRow) acc) < n := by
    intro l
    induction l with
    | nil => intro acc hacc _; exact hacc
    | cons k rest ihl =>
        intro acc hacc hl
        rw [List.foldl_cons]
        apply ihl
        · dsimp only
          split_ifs
          · exact hl k (List.mem_cons_self k rest)
          · exact hacc
        · exact fun k' hk' => hl k' (List.mem_cons_of_mem k hk')
  apply this _ i hi
  intro k hk
  obtain ⟨m, hm, rfl⟩ := List.mem_range'.mp hk
  omega

/-- Every address in the swapped augmented address list comes from the
original list, provided both swap positions are in range. -/
theorem swapAddrs_mem (addrs : List ℕ) (i j : ℕ) (hi : i < addrs.length)
    (hj : j < addrs.length) : ∀ x ∈ swapAddrs addrs i j, x ∈ addrs := by
  intro x hx
  unfold swapAddrs at hx
  rcases List.mem_or_eq_of_mem_set hx with hx' | rfl
  · rcases List.mem_or_eq_of_mem_set hx' with hx'' | rfl
    · exact hx''
    · rw [List.getD_eq_getElem _ _ hj]
      exact List.getElem_mem hj
  · rw [List.getD_eq_getElem _ _ hi]
    exact List.getElem_mem hi

/-- The inner elimination fold of the store-level forward elimination only
writes cells whose addresses are in the augmented address list, so every
cell below the original store length keeps its contents. -/
theorem elimFoldST_frame (n n0 : ℕ) (store0 : List (List ℚ)) (addrs1 : List ℕ)
    (elim : List (List ℚ) → ℕ → List ℚ)
    (haddr : ∀ ad ∈ addrs1, n0 ≤ ad) (hlen : n ≤ addrs1.length) :
    ∀ (l : List ℕ), (∀ k ∈ l, k < n) →
      ∀ s : List (List ℚ), (∀ a, a < n0 → s.getD a [] = store0.getD a []) →
      ∀ a, a < n0 →
        (l.foldl (fun st k => st.set (addrs1.getD k 0) (elim st k)) s).getD a []
          = store0.getD a [] := by
  intro l
  induction l with
  | nil => intro _ s hs a ha; exact hs a ha
  | cons k rest ihl =>
      intro hl s hs a ha
      rw [List.foldl_cons]
      refine ihl (fun k' hk' => hl k' (List.mem_cons_of_mem k hk')) _ ?_ a ha
      intro a' ha'
      have hk : k < addrs1.length := lt_of_lt_of_le (hl k (List.mem_cons_self k rest)) hlen
      have htar : n0 ≤ addrs1.getD k 0 := by
        rw [List.getD_eq_getElem _ _ hk]
        exact haddr _ (List.getElem_mem hk)
      rw [getD_set_ne_frame _ _ _ _ (by omega)]
      exact hs a' ha'

/-- One outer iteration of the store-level forward elimination preserves
every cell below the original store length, keeps all augmented addresses
at or above it, and keeps the address list long enough. -/
theorem fwdStepST_frame (n n0 : ℕ) (store0 : List (List ℚ))
    (acc : List (List ℚ) × List ℕ) (i : ℕ) (hi : i < n)
    (hstore : ∀ a, a < n0 → acc.1.getD a [] = store0.getD a [])
    (haddr : ∀ ad ∈ acc.2, n0 ≤ ad) (hlen : n ≤ acc.2.length) :
    (∀ a, a < n0 → (fwdStepST n acc i).1.getD a [] = store0.getD a []) ∧
    (∀ ad ∈ (fwdStepST n acc i).2, n0 ≤ ad) ∧ n ≤ (fwdStepST n acc i).2.length := by
  have hmaxlt : pivotRowST acc.1 acc.2 i n < n := pivotRowST_lt _ _ _ _ hi
  have hilen : i < acc.2.length := lt_of_lt_of_le hi hlen
  have hmaxlen : pivotRowST acc.1 acc.2 i n < acc.2.length := lt_of_lt_of_le hmaxlt hlen
  have haddr1 : ∀ ad ∈ swapAddrs acc.2 i (pivotRowST acc.1 acc.2 i n), n0 ≤ ad :=
    fun ad had => haddr ad (swapAddrs_mem _ _ _ hilen hmaxlen ad had)
  have hlen1 : n ≤ (swapAddrs acc.2 i (pivotRowST acc.1 acc.2 i n)).length := by
    unfold swapAddrs
    rw [List.length_set, List.length_set]
    exact hlen
  simp only [fwdStepST]
  split_ifs with hp
  · exact ⟨hstore, haddr1, hlen1⟩
  · refine ⟨?_, haddr1, hlen1⟩
    intro a ha
    refine elimFoldST_frame n n0 store0 (swapAddrs acc.2 i (pivotRowST acc.1 acc.2 i n))
      (fun st k =>
        elimRow (st.getD ((swapAddrs acc.2 i (pivotRowST acc.1 acc.2 i n)).getD i 0) [])
          (stGet st (swapAddrs acc.2 i (pivotRowST acc.1 acc.2 i n)) k i /
            stGet st (swapAddrs acc.2 i (pivotRowST acc.1 acc.2 i n)) i i) i n
          (st.getD ((swapAddrs acc.2 i (pivotRowST acc.1 acc.2 i n)).getD k 0) []))
      haddr1 hlen1 _ ?_ acc.1 hstore a ha
    intro k hk
    obtain ⟨m, hm, rfl⟩ := List.mem_range'.mp hk
    omega

/-- The whole store-level forward elimination preserves every cell below
the original store length. -/
theorem fwdFoldST_frame (n n0 : ℕ) (store0 : List (List ℚ)) :
    ∀ (l : List ℕ), (∀ k ∈ l, k < n) →
      ∀ (acc : List (List ℚ) × List ℕ),
        (∀ a, a < n0 → acc.1.getD a [] = store0.getD a []) →
        (∀ ad ∈ acc.2, n0 ≤ ad) → n ≤ acc.2.length →
        ∀ a, a < n0 → (l.foldl (fwdStepST n) acc).1.getD a [] = store0.getD a [] := by
  intro l
  induction l with
  | nil => intro _ acc hstore _ _ a ha; exact hstore a ha
  | cons i rest ihl =>
      intro hl acc hstore haddr hlen a ha
      rw [List.foldl_cons]
      obtain ⟨h1, h2, h3⟩ :=
        fwdStepST_frame n n0 store0 acc i (hl i (List.mem_cons_self i rest)) hstore haddr hlen
      exact ihl (fun k hk => hl k (List.mem_cons_of_mem i hk)) _ h1 h2 h3 a ha

/-- C10: `gaussianElimination` never mutates its inputs — every cell that
existed in the store before the call (in particular every row of `A` and
the vector `b`, whatever aliasing the caller used) holds exactly its old
contents afterwards, because elimination works on freshly copied augmented
rows. The hypothesis says `A` has at least one row per unknown, as in every
in-range call. -/
theorem c10_gaussian_elimination_inputs_unchanged (store : List (List ℚ))
    (aRows : List ℕ) (bAddr : ℕ)
    (hrows : (store.getD bAddr []).length ≤ aRows.length) :
    ∀ a, a < store.length →
      (gaussianEliminationST store aRows bAddr).1.getD a [] = store.getD a [] := by
  intro a ha
  simp only [gaussianEliminationST]
  split_ifs with h
  · rfl
  · obtain ⟨⟨rest, hrest⟩, hlen2, hmem2⟩ :=
      allocAug_foldl_spec (store.getD bAddr []) aRows.enum store []
    have hsa1 : (allocAug store aRows (store.getD bAddr [])).1 = store ++ rest := hrest
    have hsa2len : (store.getD bAddr []).length ≤
        (allocAug store aRows (store.getD bAddr [])).2.length := by
      unfold allocAug
      rw [hlen2, List.enum_length]
      simpa using hrows
    have hsa2mem : ∀ x ∈ (allocAug store aRows (store.getD bAddr [])).2,
        store.length ≤ x := by
      intro x hx
      rcases hmem2 x hx with hx' | hx'
      · exact absurd hx' (List.not_mem_nil x)
      · exact hx'
    refine fwdFoldST_frame (store.getD bAddr []).length store.length store _
      (fun k hk => List.mem_range.mp hk) _ ?_ hsa2mem hsa2len a ha
    intro a' ha'
    rw [hsa1, getD_append_frame _ _ _ ha']

/-- C10, witness: solving the 1×1 system whose row cell holds `[5]` and
whose vector cell holds `[7]` leaves both original cells unchanged. -/
theorem c10_gaussian_elimination_inputs_unchanged_witness :
    ([[(5:ℚ)], [7]].getD 1 []).length ≤ ([0] : List ℕ).length ∧
    (gaussianEliminationST [[(5:ℚ)], [7]] [0] 1).1.getD 0 [] = [5] ∧
    (gaussianEliminationST [[(5:ℚ)], [7]] [0] 1).1.getD 1 [] = [7] := by
  refine ⟨by decide, ?_, ?_⟩
  · rw [c10_gaussian_elimination_inputs_unchanged [[(5:ℚ)], [7]] [0] 1 (by decide) 0
      (by decide)]
    rfl
  · rw [c10_gaussian_elimination_inputs_unchanged [[(5:ℚ)], [7]] [0] 1 (by decide) 1
      (by decide)]
    rfl

/-- Writing a solved current into a terminal changes no terminal voltage of
any heap object. -/
theorem setTermCurrent_map_voltages (h : List Comp) (cid tIdx : ℕ) (v : ℚ) :
    (setTermCurrent h cid tIdx v).map (fun c => (c.t0.voltage, c.t1.voltage))
      = h.map (fun c => (c.t0.voltage, c.t1.voltage)) := by
  unfold setTermCurrent
  rcases hc : h[cid]? with _ | c
  · rfl
  · have hlt : cid < h.length := (List.getElem?_eq_some.mp hc).1
    split_ifs with h0 h1
    · apply List.ext_getElem?
      intro n
      rw [List.getElem?_map, List.getElem?_map]
      by_cases hn : n = cid
      · subst hn
        rw [List.getElem?_set_self hlt, hc]
        rfl
      · rw [List.getElem?_set_ne (fun he => hn he.symm)]
    · apply List.ext_getElem?
      intro n
      rw [List.getElem?_map, List.getElem?_map]
      by_cases hn : n = cid
      · subst hn
        rw [List.getElem?_set_self hlt, hc]
        rfl
      · rw [List.getElem?_set_ne (fun he => hn he.symm)]
    · rfl

/-- `updateComponentValues` changes no terminal voltage of any heap
object: it only writes wire and terminal currents. -/
theorem updateComponentValues_map_voltages (s : EngineState) :
    (s.updateComponentValues).heap.map (fun c => (c.t0.voltage, c.t1.voltage))
      = s.heap.map (fun c => (c.t0.voltage, c.t1.voltage)) := by
  unfold EngineState.updateComponentValues
  have key : ∀ (ws : List Wire) (acc : List Comp × List Wire),
      acc.1.map (fun c => (c.t0.voltage, c.t1.voltage))
        = s.heap.map (fun c => (c.t0.voltage, c.t1.voltage)) →
      ((ws.foldl
        (fun (acc : List Comp × List Wire) w =>
          match acc.1[w.startComponent]?.bind (fun c => c.getTerminal w.startTerminal),
                acc.1[w.endComponent]?.bind (fun c => c.getTerminal w.endTerminal) with
          | some st, some et =>
              (setTermCurrent
                (setTermCurrent acc.1 w.startComponent w.startTerminal
                  ((st.voltage - et.voltage) / (1/100)))
                w.endComponent w.endTerminal (-((st.voltage - et.voltage) / (1/100))),
               acc.2 ++ [{ w with current := (st.voltage - et.voltage) / (1/100) }])
          | _, _ => (acc.1, acc.2 ++ [w])) acc).1).map
          (fun c => (c.t0.voltage, c.t1.voltage))
        = s.heap.map (fun c => (c.t0.voltage, c.t1.voltage)) := by
    intro ws
    induction ws with
    | nil => intro acc hacc; exact hacc
    | cons w rest ih =>
        intro acc hacc
        rw [List.foldl_cons]
        apply ih
        rcases h1 : acc.1[w.startComponent]?.bind (fun c => c.getTerminal w.startTerminal) with
          _ | st <;>
          rcases h2 : acc.1[w.endComponent]?.bind (fun c => c.getTerminal w.endTerminal) with
            _ | et
        · simpa using hacc
        · simpa using hacc
        · simpa using hacc
        · simpa [setTermCurrent_map_voltages] using hacc
  exact key s.wires (s.heap, []) rfl

/-- C1: solved node voltages are never pushed back into the components'
terminals. First, `solveCircuit` leaves every terminal voltage of every
heap object exactly as it was (it writes node-map entries and terminal
currents only). Second, on the concrete one-battery engine the solve
stores 9 V for node 1 in the node map while the battery's terminal on node
1 still reads 0 V — so when the driver then invokes the per-component
`update(dt)` calls, `terminal.voltage` does not equal the solved voltage
of the terminal's node. -/
theorem c1_solved_voltages_never_reach_terminals :
    (∀ (expQ : ℚ → ℚ) (s : EngineState),
      (EngineState.solveCircuit expQ s).heap.map (fun c => (c.t0.voltage, c.t1.voltage))
        = s.heap.map (fun c => (c.t0.voltage, c.t1.voltage))) ∧
    (EngineState.solveCircuit (fun _ => 1) batteryEngine).nodes = [(1, 9), (2, 0)] ∧
    (EngineState.solveCircuit (fun _ => 1) batteryEngine).heap = [batteryComp] ∧
    batteryComp.t0.node = 1 ∧ batteryComp.t0.voltage = 0 ∧ (0 : ℚ) ≠ 9 := by
  have hframe : ∀ (expQ : ℚ → ℚ) (s : EngineState),
      (EngineState.solveCircuit expQ s).heap.map (fun c => (c.t0.voltage, c.t1.voltage))
        = s.heap.map (fun c => (c.t0.voltage, c.t1.voltage)) := by
    intro expQ s
    unfold EngineState.solveCircuit
    split_ifs with h
    · rfl
    · rcases hge : gaussianElimination ((s.buildGb expQ s.matrixSize).1)
        ((s.buildGb expQ s.matrixSize).2) with _ | x
      · rfl
      · exact updateComponentValues_map_voltages
          { s with nodes := applyNodeVoltages x s.nodes 0 }
  have hms : batteryEngine.matrixSize = 3 := rfl
  have hBE : batteryEngine = EngineState.mk [batteryComp] [0] [] [(1, 0), (2, 0)] := rfl
  have hnim : batteryEngine.nodeIndexMap = [(1, 0), (2, 1)] := rfl
  have hGb : batteryEngine.buildGb (fun _ => 1) 3
      = ([[10,-10,0],[-10,10,0],[0,0,0]], ([90,-90,0] : List ℚ)) := by
    have hrep : List.replicate 3 (List.replicate 3 (0:ℚ)) = [[0,0,0],[0,0,0],[0,0,0]] := rfl
    have hrepv : List.replicate 3 (0:ℚ) = [0,0,0] := rfl
    have hlk1 : List.lookup 1 [(1, 0), (2, 1)] = some 0 := rfl
    have hlk2 : List.lookup 2 [(1, 0), (2, 1)] = some 1 := rfl
    rw [EngineState.buildGb, hnim, hrep, hrepv, hBE]
    norm_num [stampComponent, mAdd, vAdd, mGetD, srcInject,
      Qinf.isPos, Qinf.recip, batteryComp,
      EngineState.compAt, Comp.getResistance, Comp.getVoltage, hlk1, hlk2]
  have hGE : gaussianElimination [[10,-10,0],[-10,10,0],[0,0,0]] ([90,-90,0] : List ℚ)
      = some [9, 0, 0] := by
    have hr3 : List.range 3 = [0, 1, 2] := rfl
    have hra : List.range' 1 2 = [1, 2] := rfl
    have hrb : List.range' 2 1 = [2] := rfl
    have hrc : List.range' 3 0 = [] := rfl
    have hrd : List.range' 0 4 = [0, 1, 2, 3] := rfl
    have hre : List.range' 1 3 = [1, 2, 3] := rfl
    have hrf : List.range' 2 2 = [2, 3] := rfl
    norm_num [gaussianElimination, eliminated, fwdStep, swapRows, pivotRow, elimRow,
      mGetD, absQ, backSubAux, hr3, hra, hrb, hrc, hrd, hre, hrf]
  refine ⟨hframe, ?_, ?_, rfl, rfl, by norm_num⟩
  · unfold EngineState.solveCircuit
    rw [hms, if_neg (by norm_num), hGb]
    simp only
    rw [hGE]
    simp only [EngineState.updateComponentValues, hBE, List.foldl_nil]
    simp [applyNodeVoltages]
  · unfold EngineState.solveCircuit
    rw [hms, if_neg (by norm_num), hGb]
    simp only
    rw [hGE]
    simp only [EngineState.updateComponentValues, hBE, List.foldl_nil]

/-- A single conductance-stamp update preserves the matrix dimensions. -/
theorem mAdd_dims (M : List (List ℚ)) (m i j : ℕ) (v : ℚ)
    (hM : M.length = m ∧ ∀ row ∈ M, row.length = m) :
    (mAdd M i j v).length = m ∧ ∀ row ∈ mAdd M i j v, row.length = m := by
  by_cases hi : i < M.length
  · constructor
    · rw [mAdd, List.length_set]
      exact hM.1
    · intro row hrow
      rcases List.mem_or_eq_of_mem_set hrow with h | rfl
      · exact hM.2 row h
      · rw [List.length_set, List.getD_eq_getElem _ _ hi]
        exact hM.2 _ (List.getElem_mem hi)
  · rw [mAdd, List.set_eq_of_length_le (not_lt.mp hi)]
    exact hM

/-- A single source-injection update preserves the vector length. -/
theorem vAdd_length (b : List ℚ) (i : ℕ) (v : ℚ) : (vAdd b i v).length = b.length :=
  List.length_set b i _

/-- One component stamp preserves the dimensions of the assembled system. -/
theorem stampComponent_dims (expQ : ℚ → ℚ) (nm : List (ℕ × ℕ))
    (Gb : List (List ℚ) × List ℚ) (c : Comp) (m : ℕ)
    (h : Gb.1.length = m ∧ (∀ row ∈ Gb.1, row.length = m) ∧ Gb.2.length = m) :
    (stampComponent expQ nm Gb c).1.length = m ∧
    (∀ row ∈ (stampComponent expQ nm Gb c).1, row.length = m) ∧
    (stampComponent expQ nm Gb c).2.length = m := by
  obtain ⟨h1, h2, h3⟩ := h
  unfold stampComponent
  dsimp only
  constructor
  · split_ifs
    · rcases nm.lookup c.t0.node with _ | n1 <;> rcases nm.lookup c.t1.node with _ | n2
      · exact h1
      · exact h1
      · exact h1
      · exact (mAdd_dims _ m _ _ _ (mAdd_dims _ m _ _ _
          (mAdd_dims _ m _ _ _ (mAdd_dims _ m _ _ _ ⟨h1, h2⟩)))).1
    · exact h1
  constructor
  · split_ifs
    · rcases nm.lookup c.t0.node with _ | n1 <;> rcases nm.lookup c.t1.node with _ | n2
      · exact h2
      · exact h2
      · exact h2
      · exact (mAdd_dims _ m _ _ _ (mAdd_dims _ m _ _ _
          (mAdd_dims _ m _ _ _ (mAdd_dims _ m _ _ _ ⟨h1, h2⟩)))).2
    · exact h2
  · split_ifs
    · rcases nm.lookup c.t0.node with _ | n1 <;> rcases nm.lookup c.t1.node with _ | n2
      · exact h3
      · rw [vAdd_length]
        exact h3
      · rw [vAdd_length]
        exact h3
      · rw [vAdd_length, vAdd_length]
        exact h3
    · exact h3

/-- The assembled system is square of the engine's chosen matrix size: the
matrix has `m` rows, every row has `m` entries, and the right-hand side has
`m` entries. -/
theorem buildGb_dims (expQ : ℚ → ℚ) (s : EngineState) (m : ℕ) :
    (s.buildGb expQ m).1.length = m ∧
    (∀ row ∈ (s.buildGb expQ m).1, row.length = m) ∧
    (s.buildGb expQ m).2.length = m := by
  unfold EngineState.buildGb
  have key : ∀ (cs : List Comp) (Gb : List (List ℚ) × List ℚ),
      Gb.1.length = m ∧ (∀ row ∈ Gb.1, row.length = m) ∧ Gb.2.length = m →
      ((cs.foldl (stampComponent expQ s.nodeIndexMap) Gb).1.length = m ∧
       (∀ row ∈ (cs.foldl (stampComponent expQ s.nodeIndexMap) Gb).1, row.length = m) ∧
       (cs.foldl (stampComponent expQ s.nodeIndexMap) Gb).2.length = m) := by
    intro cs
    induction cs with
    | nil => intro Gb hGb; exact hGb
    | cons c rest ih =>
        intro Gb hGb
        rw [List.foldl_cons]
        exact ih _ (stampComponent_dims expQ s.nodeIndexMap Gb c m hGb)
  refine key _ _ ⟨List.length_replicate m _, ?_, List.length_replicate m _⟩
  intro row hrow
  rw [List.eq_of_mem_replicate hrow]
  exact List.length_replicate m _

/-- The node-voltage write-back keeps every node id in place. -/
theorem applyNodeVoltages_fst (x : List ℚ) :
    ∀ (nodes : List (ℕ × ℚ)) (k : ℕ),
      (applyNodeVoltages x nodes k).map Prod.fst = nodes.map Prod.fst := by
  intro nodes
  induction nodes with
  | nil => intro k; rfl
  | cons p rest ih =>
      intro k
      rcases p with ⟨id, v⟩
      unfold applyNodeVoltages
      split_ifs <;> simp [ih]

/-- The node-voltage write-back never touches a ground entry: an entry of
the node map with id `0` keeps its cached voltage. -/
theorem applyNodeVoltages_ground (x : List ℚ) :
    ∀ (nodes : List (ℕ × ℚ)) (k i : ℕ) (v : ℚ),
      nodes[i]? = some (0, v) → (applyNodeVoltages x nodes k)[i]? = some (0, v) := by
  intro nodes
  induction nodes with
  | nil => intro k i v h; simp at h
  | cons p rest ih =>
      intro k i v h
      rcases p with ⟨id, w⟩
      match i with
      | 0 =>
          simp only [List.getElem?_cons_zero, Option.some_inj] at h
          obtain ⟨rfl, rfl⟩ := Prod.mk.injEq .. ▸ h
          unfold applyNodeVoltages
          rw [if_neg (by simp)]
          simp
      | i' + 1 =>
          simp only [List.getElem?_cons_succ] at h
          unfold applyNodeVoltages
          split_ifs <;> simpa using ih _ i' v h

/-- The node-voltage write-back distributes the leading solution entries,
in node-map order, to exactly the non-ground entries. -/
theorem applyNodeVoltages_nonground (x : List ℚ) :
    ∀ (nodes : List (ℕ × ℚ)) (k : ℕ),
      k + (nodes.filter (fun p => decide (p.1 ≠ 0))).length ≤ x.length →
      (applyNodeVoltages x nodes k).filterMap
          (fun p => if p.1 ≠ 0 then some p.2 else none)
        = (x.drop k).take ((nodes.filter (fun p => decide (p.1 ≠ 0))).length) := by
  intro nodes
  induction nodes with
  | nil => intro k _; simp [applyNodeVoltages]
  | cons p rest ih =>
      intro k hk
      rcases p with ⟨id, v⟩
      by_cases hid : id = 0
      · subst hid
        unfold applyNodeVoltages
        rw [if_neg (by simp)]
        rw [List.filterMap_cons]
        simp only [ne_eq, not_true_eq_false, if_false]
        have hcount : ((0, v) :: rest).filter (fun p => decide (p.1 ≠ 0))
            = rest.filter (fun p => decide (p.1 ≠ 0)) := by simp
        rw [hcount] at hk ⊢
        exact ih k hk
      · have hcount : (((id, v) :: rest).filter (fun p => decide (p.1 ≠ 0))).length
            = (rest.filter (fun p => decide (p.1 ≠ 0))).length + 1 := by
          simp [hid]
        rw [hcount] at hk ⊢
        have hklt : k < x.length := by omega
        unfold applyNodeVoltages
        rw [if_pos ⟨hid, hklt⟩, List.filterMap_cons]
        simp only [ne_eq, hid, not_false_eq_true, if_true]
        rw [List.drop_eq_getElem_cons hklt, List.take_succ_cons,
          List.getD_eq_getElem _ _ hklt]
        rw [ih (k + 1) (by omega)]

/-- C5 counterexample: for the engine holding a single 9 V battery the
assembled matrix is 3×3 (two node-map entries plus one voltage source),
while the current partition has only two non-ground nodes — the matrix
size is not the number of non-ground nodes. -/
theorem c5_matrix_size_not_nonground_count :
    batteryEngine.matrixSize = 3 ∧
    batteryEngine.specNonGroundNodeCount = 2 ∧
    (3 : ℕ) ≠ 2 :=
  ⟨rfl, rfl, by omega⟩

/-- C5 amended: the assembled system is square of size (node-map entry
count) + (number of components with non-zero `getVoltage()`) — not of the
number of non-ground partition classes — and the solved vector's leading
entries are written, in node-map order, to exactly the non-ground node
entries, while a ground entry (id 0) keeps its cached voltage. -/
theorem c5_amended_matrix_size_and_solution_scatter (expQ : ℚ → ℚ) (s : EngineState) :
    s.matrixSize = s.nodes.length + s.countVoltageSources ∧
    (s.buildGb expQ s.matrixSize).1.length = s.matrixSize ∧
    (∀ row ∈ (s.buildGb expQ s.matrixSize).1, row.length = s.matrixSize) ∧
    (s.buildGb expQ s.matrixSize).2.length = s.matrixSize ∧
    (∀ x : List ℚ,
      ((s.nodes.filter (fun p => decide (p.1 ≠ 0))).length ≤ x.length →
        (applyNodeVoltages x s.nodes 0).filterMap
            (fun p => if p.1 ≠ 0 then some p.2 else none)
          = x.take ((s.nodes.filter (fun p => decide (p.1 ≠ 0))).length)) ∧
      (∀ (i : ℕ) (v : ℚ), s.nodes[i]? = some (0, v) →
        (applyNodeVoltages x s.nodes 0)[i]? = some (0, v))) := by
  obtain ⟨h1, h2, h3⟩ := buildGb_dims expQ s s.matrixSize
  refine ⟨rfl, h1, h2, h3, ?_⟩
  intro x
  constructor
  · intro hle
    have := applyNodeVoltages_nonground x s.nodes 0 (by omega)
    simpa using this
  · intro i v hi
    exact applyNodeVoltages_ground x s.nodes 0 i v hi

/-- C5 amended, witness on an engine with a ground entry and one non-ground
entry, solved with the one-entry vector `[5]`. -/
theorem c5_amended_matrix_size_and_solution_scatter_witness :
    (groundEngine.nodes.filter (fun p => decide (p.1 ≠ 0))).length ≤ ([5] : List ℚ).length ∧
    groundEngine.nodes[0]? = some (0, 0) ∧
    (applyNodeVoltages [5] groundEngine.nodes 0).filterMap
        (fun p => if p.1 ≠ 0 then some p.2 else none)
      = ([5] : List ℚ).take ((groundEngine.nodes.filter (fun p => decide (p.1 ≠ 0))).length) ∧
    (applyNodeVoltages [5] groundEngine.nodes 0)[0]? = some (0, 0) := by
  have h := (c5_amended_matrix_size_and_solution_scatter (fun _ => 1) groundEngine).2.2.2.2
    ([5] : List ℚ)
  exact ⟨by decide, rfl, h.1 (by decide), h.2 0 0 rfl⟩
